import Mathlib

set_option linter.unusedVariables false

/-!
Shallow embedding of the request-keyed caching layer (`app/cache.py`):
the `CacheEntry` record, the `SimpleCache` store with TTL expiry, LRU
eviction, key derivation, stats and sweep.

Modelling conventions:
* `time.time()` values are modelled as integers (`ℤ`), passed explicitly
  as a `now` argument to each operation; only subtraction and order on
  timestamps are ever used, so an ordered-ring model suffices.
* The Python `dict` is modelled as an insertion-ordered association list
  `List (String × CacheEntry α)`: assignment to an existing key keeps its
  position, a new key is appended at the end, and iteration (in particular
  Python's `min`, which returns the first element attaining the minimum)
  follows list order.  This matches CPython dict semantics.
* `_generate_key` in the source md5-hashes the canonical JSON string
  `json.dumps({"query": normalized, "context": context}, sort_keys=True)`.
  md5 is a deterministic function of that string, and every claim about
  keys is an equality (the spec requires the digest to be effectively
  collision-free), so the embedding uses the canonical pre-hash string
  itself as the key: equalities of canonical strings transfer to
  equalities of their md5 digests.
* The context `Dict[str, Any]` is modelled as an association list
  `List (String × V)` over an arbitrary value type `V` together with a
  serialization `serV : V → String` for the values; `sort_keys=True` is
  modelled by sorting the top-level pairs by their string keys in
  lexicographic order of code points, which is Python's string order.
* `str.lower` / `str.strip` are modelled on the character list
  (`Char.toLower` per character, drop whitespace at both ends); the
  claims only exercise ASCII inputs, where this agrees with Python.
* The `threading.Lock` is not modelled: every operation is a single atomic
  function on the state, which is exactly what the lock guarantees.
-/

/-- `CacheEntry` dataclass: payload, creation timestamp, access count,
last-access timestamp (`None` by default in the dataclass; `set` always
fills it with the current time). -/
structure CacheEntry (α : Type) where
  data : α
  timestamp : ℤ
  access_count : ℕ
  last_accessed : Option ℤ
  deriving DecidableEq

/-- `SimpleCache` state: configuration plus the insertion-ordered store. -/
structure SimpleCache (α : Type) where
  max_size : ℕ
  default_ttl : ℤ
  cache : List (String × CacheEntry α)
  deriving DecidableEq

/-- Python `d[k]` / `k in d` lookup on the ordered-dict model. -/
def dictGet {β : Type} (k : String) : List (String × β) → Option β
  | [] => none
  | p :: rest => if p.1 = k then some p.2 else dictGet k rest

/-- Python `d[k] = v`: overwrite in place, or append a new key at the end. -/
def dictInsert {β : Type} (k : String) (v : β) : List (String × β) → List (String × β)
  | [] => [(k, v)]
  | p :: rest => if p.1 = k then (k, v) :: rest else p :: dictInsert k v rest

/-- Python `del d[k]` (keys are unique in a dict, so removing every pair
with key `k` coincides with deleting the single binding). -/
def dictErase {β : Type} (k : String) (l : List (String × β)) : List (String × β) :=
  l.filter (fun p => decide (p.1 ≠ k))

/-- `str.lower()`, character by character. -/
def pyLower (s : String) : String := ⟨s.data.map Char.toLower⟩

/-- Drop whitespace from both ends of a character list. -/
def stripChars (l : List Char) : List Char :=
  ((l.dropWhile Char.isWhitespace).reverse.dropWhile Char.isWhitespace).reverse

/-- `str.strip()`. -/
def pyStrip (s : String) : String := ⟨stripChars s.data⟩

/-- The query normalization performed by `_generate_key`:
`query.lower().strip()`. -/
def normalizeQuery (q : String) : String := pyStrip (pyLower q)

/-- Lexicographic order (by code point) on character lists: Python's
string comparison, used by `sorted` inside `json.dumps(..., sort_keys=True)`. -/
def charListLe : List Char → List Char → Bool
  | [], _ => true
  | _ :: _, [] => false
  | a :: as, b :: bs =>
      if a < b then true
      else if b < a then false
      else charListLe as bs

/-- Python `s <= t` on strings. -/
def strLe (s t : String) : Bool := charListLe s.data t.data

/-- The (non-strict) key order used to sort context items. -/
def keyLE {V : Type} (p q : String × V) : Prop := strLe p.1 q.1 = true

instance {V : Type} : DecidableRel (fun (p q : String × V) => keyLE p q) :=
  fun p q => inferInstanceAs (Decidable (strLe p.1 q.1 = true))

/-- `sorted` by key, as performed by `json.dumps(..., sort_keys=True)` on the
top-level mapping. -/
def sortByKey {V : Type} (l : List (String × V)) : List (String × V) :=
  l.insertionSort (fun p q => keyLE p q)

/-- JSON serialization of the context mapping with keys in sorted order,
values rendered by `serV`. -/
def serCtx {V : Type} (serV : V → String) (ctx : List (String × V)) : String :=
  "\x7b" ++ String.intercalate ", "
    ((sortByKey ctx).map (fun p => "\x22" ++ p.1 ++ "\x22: " ++ serV p.2)) ++ "\x7d"

/-- `SimpleCache._generate_key`: normalize the query (lowercase, strip),
build `{"query": ..., "context": ...}` and serialize it with sorted keys
(`"context"` sorts before `"query"`).  The md5 digest of this string is the
key in the source; see the module docstring for why the pre-hash canonical
string stands in for the digest. -/
def generateKey {V : Type} (serV : V → String) (query : String)
    (ctx : List (String × V)) : String :=
  "\x7b\x22context\x22: " ++ serCtx serV ctx ++ ", \x22query\x22: \x22"
    ++ normalizeQuery query ++ "\x22\x7d"

/-- The sort key used by `_evict_lru`: `entry.last_accessed or entry.timestamp`
(Python `or` falls back when `last_accessed` is `None` or falsy `0`). -/
def lruScore {α : Type} (e : CacheEntry α) : ℤ :=
  match e.last_accessed with
  | none => e.timestamp
  | some t => if t = 0 then e.timestamp else t

/-- Python `min(keys, key=f)` over the remaining iteration order: keep the
current best (key, value) pair, replacing it only on a strictly smaller
value, so the first element attaining the minimum wins. -/
def minPairAux {β : Type} (f : β → ℤ) (best : String × ℤ) :
    List (String × β) → String × ℤ
  | [] => best
  | p :: rest =>
      if f p.2 < best.2 then minPairAux f (p.1, f p.2) rest
      else minPairAux f best rest

/-- `SimpleCache._evict_lru`: no-op on an empty store, otherwise delete the
first key attaining the minimal `lruScore`. -/
def evictLRU {α : Type} (cache : List (String × CacheEntry α)) :
    List (String × CacheEntry α) :=
  match cache with
  | [] => []
  | p :: rest => dictErase (minPairAux lruScore (p.1, lruScore p.2) rest).1 (p :: rest)

/-- `SimpleCache.__init__`. -/
def SimpleCache.init (α : Type) (max_size : ℕ) (default_ttl : ℤ) : SimpleCache α :=
  ⟨max_size, default_ttl, []⟩

/-- `SimpleCache.get` after key derivation: miss if absent; if
`now - timestamp > default_ttl` delete the entry and miss; otherwise bump
`access_count`, refresh `last_accessed` and return the payload. -/
def SimpleCache.getK {α : Type} (c : SimpleCache α) (now : ℤ) (key : String) :
    Option α × SimpleCache α :=
  match dictGet key c.cache with
  | none => (none, c)
  | some entry =>
      if now - entry.timestamp > c.default_ttl then
        (none, ⟨c.max_size, c.default_ttl, dictErase key c.cache⟩)
      else
        (some entry.data,
          ⟨c.max_size, c.default_ttl,
            dictInsert key
              ⟨entry.data, entry.timestamp, entry.access_count + 1, some now⟩
              c.cache⟩)

/-- `SimpleCache.set` after key derivation: evict (unconditionally on the
size test, even when the key is already present) if `len >= max_size`, then
store a fresh entry.  The `ttl` override parameter is accepted, as in the
source signature, and — exactly as in the source body — never used. -/
def SimpleCache.setK {α : Type} (c : SimpleCache α) (now : ℤ) (key : String)
    (data : α) (ttl : Option ℤ) : SimpleCache α :=
  let cache1 := if c.cache.length ≥ c.max_size then evictLRU c.cache else c.cache
  ⟨c.max_size, c.default_ttl, dictInsert key ⟨data, now, 0, some now⟩ cache1⟩

/-- Public `get(query, context)`. -/
def SimpleCache.get {α V : Type} (c : SimpleCache α) (serV : V → String) (now : ℤ)
    (query : String) (context : List (String × V)) : Option α × SimpleCache α :=
  c.getK now (generateKey serV query context)

/-- Public `set(query, data, context, ttl)`. -/
def SimpleCache.set {α V : Type} (c : SimpleCache α) (serV : V → String) (now : ℤ)
    (query : String) (data : α) (context : List (String × V)) (ttl : Option ℤ) :
    SimpleCache α :=
  c.setK now (generateKey serV query context) data ttl

/-- `SimpleCache.clear`. -/
def SimpleCache.clear {α : Type} (c : SimpleCache α) : SimpleCache α :=
  ⟨c.max_size, c.default_ttl, []⟩

/-- The record returned by `SimpleCache.stats`. -/
structure CacheStats where
  size : ℕ
  max_size : ℕ
  total_accesses : ℕ
  hit_rate : ℚ
  oldest_entry : Option ℤ
  newest_entry : Option ℤ
  deriving DecidableEq

/-- Python `min(iterable, default=None)` over the listed values. -/
def minZ : List ℤ → Option ℤ
  | [] => none
  | x :: xs =>
      match minZ xs with
      | none => some x
      | some m => some (min x m)

/-- Python `max(iterable, default=None)` over the listed values. -/
def maxZ : List ℤ → Option ℤ
  | [] => none
  | x :: xs =>
      match maxZ xs with
      | none => some x
      | some m => some (max x m)

/-- `SimpleCache.stats`. -/
def SimpleCache.stats {α : Type} (c : SimpleCache α) : CacheStats :=
  let total_accesses := (c.cache.map (fun p => p.2.access_count)).sum
  ⟨c.cache.length, c.max_size, total_accesses,
    if total_accesses = 0 then 0
    else (total_accesses : ℚ) / (c.cache.length : ℚ),
    minZ (c.cache.map (fun p => p.2.timestamp)),
    maxZ (c.cache.map (fun p => p.2.timestamp))⟩

/-- `SimpleCache.cleanup_expired`: collect the keys of the expired entries,
delete each of them, return how many were collected. -/
def SimpleCache.cleanup_expired {α : Type} (c : SimpleCache α) (now : ℤ) :
    ℕ × SimpleCache α :=
  let expired_keys :=
    (c.cache.filter (fun p => decide (now - p.2.timestamp > c.default_ttl))).map Prod.fst
  (expired_keys.length,
    ⟨c.max_size, c.default_ttl, expired_keys.foldl (fun s k => dictErase k s) c.cache⟩)

/-! ### Association-list (ordered dict) lemmas -/

theorem dictGet_dictInsert_self {β : Type} (k : String) (v : β) (l : List (String × β)) :
    dictGet k (dictInsert k v l) = some v := by
  induction l with
  | nil => simp [dictGet, dictInsert]
  | cons p rest ih =>
      by_cases h : p.1 = k
      · simp [dictInsert, h, dictGet]
      · simp [dictInsert, h, dictGet, ih]

theorem dictGet_dictInsert_ne {β : Type} (k k' : String) (v : β) (l : List (String × β))
    (h : k' ≠ k) : dictGet k' (dictInsert k v l) = dictGet k' l := by
  induction l with
  | nil => simp [dictGet, dictInsert, Ne.symm h]
  | cons p rest ih =>
      by_cases hp : p.1 = k
      · subst hp
        simp [dictInsert, dictGet, Ne.symm h, ih]
      · simp [dictInsert, hp, dictGet, ih]

theorem length_dictInsert_mem {β : Type} (k : String) (v : β) (l : List (String × β))
    (h : k ∈ l.map Prod.fst) : (dictInsert k v l).length = l.length := by
  induction l with
  | nil => simp at h
  | cons p rest ih =>
      by_cases hp : p.1 = k
      · simp [dictInsert, hp]
      · have hr : k ∈ rest.map Prod.fst := by
          rcases List.mem_map.mp h with ⟨q, hq, hqk⟩
          rcases List.mem_cons.mp hq with rfl | hq'
          · exact absurd hqk hp
          · exact List.mem_map.mpr ⟨q, hq', hqk⟩
        simp [dictInsert, hp, ih hr]

theorem length_dictInsert_le {β : Type} (k : String) (v : β) (l : List (String × β)) :
    (dictInsert k v l).length ≤ l.length + 1 := by
  induction l with
  | nil => simp [dictInsert]
  | cons p rest ih =>
      by_cases hp : p.1 = k
      · simp [dictInsert, hp]
      · simp only [dictInsert, if_neg hp, List.length_cons]
        omega

theorem mem_of_dictGet_eq_some {β : Type} {k : String} {l : List (String × β)}
    {e : β} (h : dictGet k l = some e) : k ∈ l.map Prod.fst := by
  induction l with
  | nil => simp [dictGet] at h
  | cons p rest ih =>
      by_cases hp : p.1 = k
      · simp [hp]
      · rw [dictGet, if_neg hp] at h
        simp [ih h]

theorem dictErase_cons {β : Type} (k : String) (p : String × β) (rest : List (String × β)) :
    dictErase k (p :: rest) =
      if p.1 = k then dictErase k rest else p :: dictErase k rest := by
  by_cases hp : p.1 = k
  · simp [dictErase, List.filter, hp]
  · simp [dictErase, List.filter, hp]

theorem length_dictErase_le {β : Type} (k : String) (l : List (String × β)) :
    (dictErase k l).length ≤ l.length :=
  List.length_filter_le _ l

theorem dictGet_dictErase_self {β : Type} (k : String) (l : List (String × β)) :
    dictGet k (dictErase k l) = none := by
  induction l with
  | nil => simp [dictGet, dictErase]
  | cons p rest ih =>
      rw [dictErase_cons]
      by_cases hp : p.1 = k
      · rw [if_pos hp]; exact ih
      · rw [if_neg hp, dictGet, if_neg hp]; exact ih

theorem dictGet_dictErase_ne {β : Type} (k k' : String) (l : List (String × β))
    (h : k' ≠ k) : dictGet k' (dictErase k l) = dictGet k' l := by
  induction l with
  | nil => simp [dictErase]
  | cons p rest ih =>
      rw [dictErase_cons]
      by_cases hp : p.1 = k
      · have hpk : ¬ p.1 = k' := by rw [hp]; exact Ne.symm h
        rw [if_pos hp, dictGet, if_neg hpk]; exact ih
      · rw [if_neg hp, dictGet, dictGet]
        by_cases hpk : p.1 = k'
        · rw [if_pos hpk, if_pos hpk]
        · rw [if_neg hpk, if_neg hpk]; exact ih

theorem length_dictErase_lt {β : Type} (k : String) (l : List (String × β))
    (h : k ∈ l.map Prod.fst) : (dictErase k l).length < l.length := by
  induction l with
  | nil => simp at h
  | cons p rest ih =>
      rw [dictErase_cons]
      by_cases hp : p.1 = k
      · rw [if_pos hp]
        have := length_dictErase_le k rest
        simp only [List.length_cons]
        omega
      · have hr : k ∈ rest.map Prod.fst := by
          rcases List.mem_map.mp h with ⟨q, hq, hqk⟩
          rcases List.mem_cons.mp hq with rfl | hq'
          · exact absurd hqk hp
          · exact List.mem_map.mpr ⟨q, hq', hqk⟩
        have := ih hr
        rw [if_neg hp]
        simp only [List.length_cons]
        omega

theorem dictErase_of_not_mem {β : Type} (k : String) (l : List (String × β))
    (h : k ∉ l.map Prod.fst) : dictErase k l = l := by
  induction l with
  | nil => rfl
  | cons p rest ih =>
      have hp : ¬ p.1 = k := by
        intro hh
        exact h (List.mem_map.mpr ⟨p, List.mem_cons_self _ _, hh⟩)
      have hr : k ∉ rest.map Prod.fst := by
        intro hh
        rcases List.mem_map.mp hh with ⟨q, hq, hqk⟩
        exact h (List.mem_map.mpr ⟨q, List.mem_cons_of_mem _ hq, hqk⟩)
      rw [dictErase_cons, if_neg hp, ih hr]

theorem length_dictErase_nodup {β : Type} (k : String) (l : List (String × β))
    (hn : (l.map Prod.fst).Nodup) (h : k ∈ l.map Prod.fst) :
    (dictErase k l).length + 1 = l.length := by
  induction l with
  | nil => simp at h
  | cons p rest ih =>
      rw [List.map_cons, List.nodup_cons] at hn
      rw [dictErase_cons]
      by_cases hp : p.1 = k
      · have hr : k ∉ rest.map Prod.fst := by rw [← hp]; exact hn.1
        rw [if_pos hp, dictErase_of_not_mem k rest hr, List.length_cons]
      · have hr : k ∈ rest.map Prod.fst := by
          rcases List.mem_map.mp h with ⟨q, hq, hqk⟩
          rcases List.mem_cons.mp hq with rfl | hq'
          · exact absurd hqk hp
          · exact List.mem_map.mpr ⟨q, hq', hqk⟩
        have := ih hn.2 hr
        rw [if_neg hp]
        simp only [List.length_cons]
        omega

/-! ### Order properties of the key comparison -/

theorem charListLe_total : ∀ a b : List Char, charListLe a b = true ∨ charListLe b a = true
  | [], _ => Or.inl rfl
  | _ :: _, [] => Or.inr rfl
  | a :: as, b :: bs => by
      rcases lt_trichotomy a b with h | h | h
      · left; simp [charListLe, h]
      · subst h
        rcases charListLe_total as bs with ih | ih
        · left; simpa [charListLe, lt_irrefl a] using ih
        · right; simpa [charListLe, lt_irrefl a] using ih
      · right; simp [charListLe, h]

theorem charListLe_trans :
    ∀ a b c : List Char,
      charListLe a b = true → charListLe b c = true → charListLe a c = true
  | [], _, _, _, _ => rfl
  | _ :: _, [], _, h, _ => by simp [charListLe] at h
  | _ :: _, _ :: _, [], _, h => by simp [charListLe] at h
  | x :: xs, y :: ys, z :: zs, h1, h2 => by
      simp only [charListLe] at h1 h2 ⊢
      rcases lt_trichotomy x y with hxy | hxy | hxy
      · rcases lt_trichotomy y z with hyz | hyz | hyz
        · rw [if_pos (lt_trans hxy hyz)]
        · subst hyz; rw [if_pos hxy]
        · rw [if_neg (asymm hyz), if_pos hyz] at h2; exact absurd h2 (by simp)
      · subst hxy
        rcases lt_trichotomy x z with hxz | hxz | hxz
        · rw [if_pos hxz]
        · subst hxz
          rw [if_neg (lt_irrefl x), if_neg (lt_irrefl x)] at h1 h2 ⊢
          exact charListLe_trans _ _ _ h1 h2
        · rw [if_neg (asymm hxz), if_pos hxz] at h2; exact absurd h2 (by simp)
      · rw [if_neg (asymm hxy), if_pos hxy] at h1; exact absurd h1 (by simp)

theorem charListLe_antisymm :
    ∀ a b : List Char, charListLe a b = true → charListLe b a = true → a = b
  | [], [], _, _ => rfl
  | [], _ :: _, _, h2 => by simp [charListLe] at h2
  | _ :: _, [], h1, _ => by simp [charListLe] at h1
  | x :: xs, y :: ys, h1, h2 => by
      simp only [charListLe] at h1 h2
      rcases lt_trichotomy x y with h | h | h
      · rw [if_neg (asymm h), if_pos h] at h2; exact absurd h2 (by simp)
      · subst h
        rw [if_neg (lt_irrefl x), if_neg (lt_irrefl x)] at h1 h2
        rw [charListLe_antisymm xs ys h1 h2]
      · rw [if_neg (asymm h), if_pos h] at h1; exact absurd h1 (by simp)

theorem strLe_total (s t : String) : strLe s t = true ∨ strLe t s = true :=
  charListLe_total s.data t.data

theorem strLe_trans {s t u : String} (h1 : strLe s t = true) (h2 : strLe t u = true) :
    strLe s u = true :=
  charListLe_trans s.data t.data u.data h1 h2

theorem strLe_antisymm {s t : String} (h1 : strLe s t = true) (h2 : strLe t s = true) :
    s = t := by
  cases s with
  | mk a => cases t with
    | mk b => exact congrArg String.mk (charListLe_antisymm a b h1 h2)

instance {V : Type} : IsTotal (String × V) (fun p q => keyLE p q) :=
  ⟨fun a b => strLe_total a.1 b.1⟩

instance {V : Type} : IsTrans (String × V) (fun p q => keyLE p q) :=
  ⟨fun _ _ _ h1 h2 => strLe_trans h1 h2⟩

/-- Strict version of the key order, used only to identify the sorted list
uniquely on duplicate-free key sets. -/
def keyLT {V : Type} (p q : String × V) : Prop := keyLE p q ∧ p.1 ≠ q.1

instance {V : Type} : IsAntisymm (String × V) (fun p q => keyLT p q) :=
  ⟨fun _ _ h1 h2 => absurd (strLe_antisymm h1.1 h2.1) h1.2⟩

/-- Sorting by keys is invariant under permutation when the keys are
duplicate-free: the mapping content alone determines the sorted item list. -/
theorem sortByKey_eq_of_perm {V : Type} {l₁ l₂ : List (String × V)}
    (hp : l₁.Perm l₂) (hn : (l₁.map Prod.fst).Nodup) :
    sortByKey l₁ = sortByKey l₂ := by
  have hperm1 := List.perm_insertionSort (fun p q : String × V => keyLE p q) l₁
  have hperm2 := List.perm_insertionSort (fun p q : String × V => keyLE p q) l₂
  have hp' : (sortByKey l₁).Perm (sortByKey l₂) :=
    hperm1.trans (hp.trans hperm2.symm)
  have hs₁ : (sortByKey l₁).Sorted (fun p q => keyLE p q) :=
    List.sorted_insertionSort _ l₁
  have hs₂ : (sortByKey l₂).Sorted (fun p q => keyLE p q) :=
    List.sorted_insertionSort _ l₂
  have hn₁ : ((sortByKey l₁).map Prod.fst).Nodup :=
    ((hperm1.map Prod.fst).symm).nodup hn
  have hn₂ : ((sortByKey l₂).map Prod.fst).Nodup :=
    ((hperm2.map Prod.fst).symm).nodup ((hp.map Prod.fst).nodup hn)
  have hstrict : ∀ {l : List (String × V)}, l.Sorted (fun p q => keyLE p q) →
      ((l.map Prod.fst).Nodup) → l.Sorted (fun p q => keyLT p q) := by
    intro l hs hnd
    have hnd' : l.Pairwise (fun p q => p.1 ≠ q.1) := List.pairwise_map.mp hnd
    exact (hs.and hnd').imp (fun h => h)
  exact List.eq_of_perm_of_sorted hp' (hstrict hs₁ hn₁) (hstrict hs₂ hn₂)

/-! ### The LRU minimum scan -/

theorem minPairAux_spec {β : Type} (f : β → ℤ) (l : List (String × β)) :
    ∀ best : String × ℤ,
      (minPairAux f best l = best ∨
        ∃ e, ((minPairAux f best l).1, e) ∈ l ∧ (minPairAux f best l).2 = f e) ∧
      (minPairAux f best l).2 ≤ best.2 ∧
      ∀ p ∈ l, (minPairAux f best l).2 ≤ f p.2 := by
  induction l with
  | nil => exact fun best => ⟨Or.inl rfl, le_refl _, by simp⟩
  | cons p rest ih =>
      intro best
      by_cases h : f p.2 < best.2
      · have hrec := ih (p.1, f p.2)
        simp only [minPairAux, if_pos h]
        refine ⟨?_, ?_, ?_⟩
        · rcases hrec.1 with h1 | ⟨e, he, hv⟩
          · right
            refine ⟨p.2, ?_, ?_⟩
            · rw [h1]; exact List.mem_cons_self _ _
            · rw [h1]
          · right; exact ⟨e, List.mem_cons_of_mem _ he, hv⟩
        · exact le_trans hrec.2.1 (le_of_lt h)
        · intro q hq
          rcases List.mem_cons.mp hq with rfl | hq'
          · exact hrec.2.1
          · exact hrec.2.2 q hq'
      · have hrec := ih best
        simp only [minPairAux, if_neg h]
        refine ⟨?_, hrec.2.1, ?_⟩
        · rcases hrec.1 with h1 | ⟨e, he, hv⟩
          · exact Or.inl h1
          · right; exact ⟨e, List.mem_cons_of_mem _ he, hv⟩
        · intro q hq
          rcases List.mem_cons.mp hq with rfl | hq'
          · exact le_trans hrec.2.1 (not_lt.mp h)
          · exact hrec.2.2 q hq'

theorem minPairAux_key_mem {β : Type} (f : β → ℤ) (l : List (String × β))
    (best : String × ℤ) :
    (minPairAux f best l).1 = best.1 ∨ (minPairAux f best l).1 ∈ l.map Prod.fst := by
  rcases (minPairAux_spec f l best).1 with h | ⟨e, he, _⟩
  · left; rw [h]
  · right; exact List.mem_map.mpr ⟨_, he, rfl⟩

/-! ### The sweep -/

theorem mem_foldl_dictErase {β : Type} (ks : List String) :
    ∀ (l : List (String × β)) (p : String × β),
      p ∈ ks.foldl (fun s k => dictErase k s) l → p ∈ l ∧ p.1 ∉ ks := by
  induction ks with
  | nil => intro l p h; exact ⟨h, by simp⟩
  | cons k ks ih =>
      intro l p h
      simp only [List.foldl_cons] at h
      have hrec := ih (dictErase k l) p h
      have hmem : p ∈ l ∧ ¬ (p.1 = k) := by
        have := hrec.1
        simp only [dictErase, List.mem_filter, decide_eq_true_eq] at this
        exact this
      refine ⟨hmem.1, ?_⟩
      simp only [List.mem_cons, not_or]
      exact ⟨hmem.2, hrec.2⟩

/-! ### Derived facts used by several claims -/

theorem length_evictLRU_lt {α : Type} (cache : List (String × CacheEntry α))
    (h : cache ≠ []) : (evictLRU cache).length < cache.length := by
  cases cache with
  | nil => exact absurd rfl h
  | cons p rest =>
      have hkey := minPairAux_key_mem lruScore rest (p.1, lruScore p.2)
      have hmem : (minPairAux lruScore (p.1, lruScore p.2) rest).1 ∈
          (p :: rest).map Prod.fst := by
        rcases hkey with h1 | h1
        · rw [List.map_cons, h1]; exact List.mem_cons_self _ _
        · rw [List.map_cons]; exact List.mem_cons_of_mem _ h1
      exact length_dictErase_lt _ _ hmem

theorem cleanup_expired_of_no_expired {α : Type} (c : SimpleCache α) (now : ℤ)
    (h : ∀ p ∈ c.cache, ¬ (now - p.2.timestamp > c.default_ttl)) :
    c.cleanup_expired now = (0, c) := by
  have hfil : c.cache.filter (fun p => decide (now - p.2.timestamp > c.default_ttl)) = [] :=
    List.filter_eq_nil_iff.mpr (fun p hp => by simpa using h p hp)
  simp only [SimpleCache.cleanup_expired]
  rw [hfil]
  rfl

/-! ### The claims -/

/-- C1: the `ttl` override argument of `set` is silently ignored by the
code.  With `default_ttl = 10`, an entry stored with override `ttl = 100`
is already treated as expired by a `get` at age 50: the `get` returns
absent and deletes the entry, although the claim requires a hit at every
age between the default TTL and the override. -/
theorem ttl_override_ignored :
    ((((SimpleCache.init ℕ 1000 10).set (fun v : String => v) 0 "q" 5 [] (some 100)).get
        (fun v : String => v) 50 "q" []).1 = none) ∧
    ((((SimpleCache.init ℕ 1000 10).set (fun v : String => v) 0 "q" 5 [] (some 100)).get
        (fun v : String => v) 50 "q" []).2.cache.length = 0) := by decide

/-- C2 (amended): after any `set`, the store size is at most
`max max_size 1`; for `max_size ≥ 1` this is exactly preservation of the
claimed invariant `|store| ≤ max_size`, so `max_size + k` distinct sets
never leave the size above `max_size`.  For `max_size = 0` the bound `1`
is tight: the code still retains one entry (see the counterexample). -/
theorem setK_size_bound {α : Type} (c : SimpleCache α) (now : ℤ) (k : String)
    (d : α) (ttl : Option ℤ) (h : c.cache.length ≤ max c.max_size 1) :
    (c.setK now k d ttl).cache.length ≤ max c.max_size 1 := by
  have hms := le_max_left c.max_size 1
  have h1m : (1 : ℕ) ≤ max c.max_size 1 := le_max_right _ _
  show (dictInsert k ⟨d, now, 0, some now⟩
      (if c.cache.length ≥ c.max_size then evictLRU c.cache else c.cache)).length ≤
    max c.max_size 1
  by_cases hc : c.cache.length ≥ c.max_size
  · rw [if_pos hc]
    by_cases hnil : c.cache = []
    · rw [hnil]
      simp only [evictLRU, dictInsert, List.length_singleton]
      exact h1m
    · have hlt := length_evictLRU_lt c.cache hnil
      have hle := length_dictInsert_le k ⟨d, now, 0, some now⟩ (evictLRU c.cache)
      omega
  · rw [if_neg hc]
    have hle := length_dictInsert_le k ⟨d, now, 0, some now⟩ c.cache
    omega

/-- C2 counterexample: with `max_size = 0`, a single `set` still leaves one
entry in the store, so the claimed invariant `|store| ≤ max_size` fails and
the degenerate configuration does retain something. -/
theorem setK_max_size_zero_cex :
    ¬ (((SimpleCache.init ℕ 0 100).setK 0 "a" 7 none).cache.length ≤
        (SimpleCache.init ℕ 0 100).max_size) := by decide

theorem setK_size_bound_witness :
    ((SimpleCache.init ℕ 2 100).cache.length ≤ max (SimpleCache.init ℕ 2 100).max_size 1) ∧
    (((SimpleCache.init ℕ 2 100).setK 0 "a" 7 none).cache.length ≤
      max (SimpleCache.init ℕ 2 100).max_size 1) :=
  ⟨by decide, setK_size_bound (SimpleCache.init ℕ 2 100) 0 "a" 7 none (by decide)⟩

/-- C3 (amended): when the store is strictly below `max_size`, a `set` on an
already-present derived key replaces exactly that entry (new payload,
`access_count` reset to 0, `created_at = last_accessed_at = now`), leaves
every other key unchanged and keeps the store size; when the store is at or
above `max_size`, the code runs eviction first even on an overwrite (see
the counterexample). -/
theorem set_overwrite_below_cap {α V : Type} (serV : V → String) (c : SimpleCache α)
    (now : ℤ) (q : String) (d : α) (ctx : List (String × V)) (ttl : Option ℤ)
    (hmem : generateKey serV q ctx ∈ c.cache.map Prod.fst)
    (hcap : c.cache.length < c.max_size) :
    ((c.set serV now q d ctx ttl).cache.length = c.cache.length) ∧
    (dictGet (generateKey serV q ctx) (c.set serV now q d ctx ttl).cache =
      some ⟨d, now, 0, some now⟩) ∧
    (∀ k', k' ≠ generateKey serV q ctx →
      dictGet k' (c.set serV now q d ctx ttl).cache = dictGet k' c.cache) := by
  have hng : ¬ (c.cache.length ≥ c.max_size) := not_le.mpr hcap
  have hcache : (c.set serV now q d ctx ttl).cache =
      dictInsert (generateKey serV q ctx) ⟨d, now, 0, some now⟩ c.cache := by
    show dictInsert _ _ (if c.cache.length ≥ c.max_size then evictLRU c.cache else c.cache) = _
    rw [if_neg hng]
  rw [hcache]
  exact ⟨length_dictInsert_mem _ _ _ hmem, dictGet_dictInsert_self _ _ _,
    fun k' hk' => dictGet_dictInsert_ne _ k' _ _ hk'⟩

/-- C3 counterexample: `max_size = 2`, store full with "a" (older
last-access) and "b"; overwriting "b" runs eviction, which removes "a", so
the other entry disappears and the size drops from 2 to 1. -/
theorem set_overwrite_at_cap_evicts_cex :
    (((((SimpleCache.init ℕ 2 100).set (fun v : String => v) 0 "a" 1 [] none).set
        (fun v : String => v) 1 "b" 2 [] none).set
        (fun v : String => v) 2 "b" 3 [] none).cache.length = 1) ∧
    ((((((SimpleCache.init ℕ 2 100).set (fun v : String => v) 0 "a" 1 [] none).set
        (fun v : String => v) 1 "b" 2 [] none).set
        (fun v : String => v) 2 "b" 3 [] none).get (fun v : String => v) 2 "a" []).1 =
      none) := by decide

theorem set_overwrite_below_cap_witness :
    (generateKey (fun v : String => v) "q" ([] : List (String × String)) ∈
      (((SimpleCache.init ℕ 10 100).set (fun v : String => v) 0 "q" 5 [] none).cache.map
        Prod.fst)) ∧
    ((((SimpleCache.init ℕ 10 100).set (fun v : String => v) 0 "q" 5 [] none).set
        (fun v : String => v) 1 "q" 6 [] none).cache.length =
      ((SimpleCache.init ℕ 10 100).set (fun v : String => v) 0 "q" 5 [] none).cache.length) :=
  ⟨by decide,
    (set_overwrite_below_cap (fun v : String => v)
      ((SimpleCache.init ℕ 10 100).set (fun v : String => v) 0 "q" 5 [] none)
      1 "q" 6 [] none (by decide) (by decide)).1⟩

/-- C4 (amended): eviction on a non-empty store with duplicate-free keys
removes exactly one entry, one attaining the minimal LRU sort key
(`last_accessed`, falling back to the creation timestamp when it is unset
or zero).  Among entries tying on that minimum, the victim is the first in
dict iteration (insertion) order — not necessarily the one with the
smallest `created_at`, as the counterexample shows. -/
theorem evictLRU_removes_min {α : Type} (cache : List (String × CacheEntry α))
    (hne : cache ≠ []) (hnd : (cache.map Prod.fst).Nodup) :
    ∃ k e, (k, e) ∈ cache ∧ evictLRU cache = dictErase k cache ∧
      (evictLRU cache).length + 1 = cache.length ∧
      ∀ p ∈ cache, lruScore e ≤ lruScore p.2 := by
  cases cache with
  | nil => exact absurd rfl hne
  | cons p rest =>
      have hs := minPairAux_spec lruScore rest (p.1, lruScore p.2)
      have hdef : evictLRU (p :: rest) =
          dictErase (minPairAux lruScore (p.1, lruScore p.2) rest).1 (p :: rest) := rfl
      rcases hs.1 with h1 | ⟨e, he, hv⟩
      · have hk : (minPairAux lruScore (p.1, lruScore p.2) rest).1 = p.1 := by rw [h1]
        have hv2 : (minPairAux lruScore (p.1, lruScore p.2) rest).2 = lruScore p.2 := by
          rw [h1]
        refine ⟨p.1, p.2, List.mem_cons_self _ _, ?_, ?_, ?_⟩
        · rw [hdef, hk]
        · rw [hdef, hk]
          refine length_dictErase_nodup _ _ hnd ?_
          rw [List.map_cons]
          exact List.mem_cons_self _ _
        · intro q hq
          rcases List.mem_cons.mp hq with rfl | hq'
          · exact le_refl _
          · have := hs.2.2 q hq'
            rw [hv2] at this
            exact this
      · refine ⟨(minPairAux lruScore (p.1, lruScore p.2) rest).1, e,
          List.mem_cons_of_mem _ he, hdef, ?_, ?_⟩
        · rw [hdef]
          refine length_dictErase_nodup _ _ hnd ?_
          rw [List.map_cons]
          exact List.mem_cons_of_mem _ (List.mem_map.mpr ⟨_, he, rfl⟩)
        · intro q hq
          rw [← hv]
          rcases List.mem_cons.mp hq with rfl | hq'
          · exact hs.2.1
          · exact hs.2.2 q hq'

/-- C4 counterexample: after set "a" at 0, set "b" at 1, overwrite "a" at 5
(in place: "a" keeps the first dict slot but now has `created_at = 5`),
get "b" at 5, set "d" at 6, the store is full; the `set` of "e" at 7 runs
eviction with "a" and "b" tied on `last_accessed = 5`.  The claimed
tie-break (smallest `created_at`) would evict "b" (created at 1), but the
code evicts "a", the first key in iteration order. -/
theorem evict_tiebreak_cex :
    (((((((((SimpleCache.init ℕ 3 100).setK 0 "a" 1 none).setK 1 "b" 2 none).setK 5
        "a" 3 none).getK 5 "b").2.setK 6 "d" 4 none).setK 7 "e" 5 none).getK 7
        "a").1 = none) ∧
    (((((((((SimpleCache.init ℕ 3 100).setK 0 "a" 1 none).setK 1 "b" 2 none).setK 5
        "a" 3 none).getK 5 "b").2.setK 6 "d" 4 none).setK 7 "e" 5 none).getK 7
        "b").1 = some 2) := by decide

theorem evictLRU_removes_min_witness :
    (([("a", (⟨5, 3, 0, some 3⟩ : CacheEntry ℕ))] : List (String × CacheEntry ℕ)) ≠ []) ∧
    (∃ k e, (k, e) ∈ ([("a", (⟨5, 3, 0, some 3⟩ : CacheEntry ℕ))] :
        List (String × CacheEntry ℕ)) ∧
      evictLRU [("a", (⟨5, 3, 0, some 3⟩ : CacheEntry ℕ))] =
        dictErase k [("a", (⟨5, 3, 0, some 3⟩ : CacheEntry ℕ))] ∧
      (evictLRU [("a", (⟨5, 3, 0, some 3⟩ : CacheEntry ℕ))]).length + 1 =
        ([("a", (⟨5, 3, 0, some 3⟩ : CacheEntry ℕ))] :
          List (String × CacheEntry ℕ)).length ∧
      ∀ p ∈ ([("a", (⟨5, 3, 0, some 3⟩ : CacheEntry ℕ))] :
          List (String × CacheEntry ℕ)), lruScore e ≤ lruScore p.2) :=
  ⟨by decide, evictLRU_removes_min _ (by decide) (by decide)⟩

/-- C5 (amended): with `default_ttl = 0`, a `set` at `t0` followed by a
`get` at `t1` on the same key misses exactly when `t0 < t1`: the entry is
stale at every instant strictly after creation, but a `get` whose `now`
equals the creation time is still a hit, because the expiry test is the
strict comparison `now - created_at > ttl`. -/
theorem ttl_zero_set_get {α : Type} (c : SimpleCache α) (h : c.default_ttl = 0)
    (t0 t1 : ℤ) (k : String) (d : α) (o : Option ℤ) :
    ((c.setK t0 k d o).getK t1 k).1 = if t0 < t1 then none else some d := by
  have hset : (c.setK t0 k d o).cache =
      dictInsert k ⟨d, t0, 0, some t0⟩
        (if c.cache.length ≥ c.max_size then evictLRU c.cache else c.cache) := rfl
  have httl : (c.setK t0 k d o).default_ttl = c.default_ttl := rfl
  simp only [SimpleCache.getK, hset, dictGet_dictInsert_self, httl, h]
  by_cases hlt : t0 < t1
  · rw [if_pos (show t1 - t0 > (0 : ℤ) by omega), if_pos hlt]
  · rw [if_neg (show ¬ t1 - t0 > (0 : ℤ) by omega), if_neg hlt]

/-- C5 counterexample: `default_ttl = 0`, `set` at time 0, `get` at time 0:
the claim says the entry is immediately stale and the get returns absent,
but the code returns the payload (age 0 is not strictly greater than 0). -/
theorem ttl_zero_get_at_creation_cex :
    (((SimpleCache.init ℕ 10 0).setK 0 "k" 5 none).getK 0 "k").1 = some 5 := by decide

theorem ttl_zero_set_get_witness :
    ((SimpleCache.init ℕ 5 0).default_ttl = 0) ∧
    ((((SimpleCache.init ℕ 5 0).setK 0 "k" 3 none).getK 1 "k").1 =
      if (0 : ℤ) < 1 then none else some 3) :=
  ⟨by decide, ttl_zero_set_get (SimpleCache.init ℕ 5 0) (by decide) 0 1 "k" 3 none⟩

/-- C6: a `get` on a present entry whose age `now - created_at` strictly
exceeds `default_ttl` returns absent and removes exactly that entry: the
resulting store is the old one with the key deleted, the key no longer
resolves, and with duplicate-free keys the entry no longer counts towards
`stats().size`. -/
theorem getK_expired_removes {α : Type} (c : SimpleCache α) (now : ℤ) (k : String)
    (e : CacheEntry α) (h1 : dictGet k c.cache = some e)
    (h2 : now - e.timestamp > c.default_ttl)
    (hn : (c.cache.map Prod.fst).Nodup) :
    ((c.getK now k).1 = none) ∧
    ((c.getK now k).2.cache = dictErase k c.cache) ∧
    (dictGet k (c.getK now k).2.cache = none) ∧
    ((c.getK now k).2.stats.size + 1 = c.stats.size) := by
  have hg : c.getK now k = (none, ⟨c.max_size, c.default_ttl, dictErase k c.cache⟩) := by
    simp only [SimpleCache.getK, h1, if_pos h2]
  rw [hg]
  refine ⟨rfl, rfl, dictGet_dictErase_self _ _, ?_⟩
  show (dictErase k c.cache).length + 1 = c.cache.length
  exact length_dictErase_nodup _ _ hn (mem_of_dictGet_eq_some h1)

theorem getK_expired_removes_witness :
    (dictGet "k" ((SimpleCache.init ℕ 5 1).setK 0 "k" 3 none).cache =
      some ⟨3, 0, 0, some 0⟩) ∧
    ((((SimpleCache.init ℕ 5 1).setK 0 "k" 3 none).getK 10 "k").1 = none) :=
  ⟨by decide,
    (getK_expired_removes ((SimpleCache.init ℕ 5 1).setK 0 "k" 3 none) 10 "k"
      ⟨3, 0, 0, some 0⟩ (by decide) (by decide) (by decide)).1⟩

/-- C7: `stats` reports `hit_rate = total_accesses / size` whenever the
store is non-empty and `0` when it is empty; the code's guard on
`total_accesses = 0` is equivalent to this because an empty store has zero
total accesses and `0 / size = 0`. -/
theorem stats_hit_rate_eq {α : Type} (c : SimpleCache α) :
    c.stats.hit_rate =
      if c.stats.size = 0 then 0
      else (c.stats.total_accesses : ℚ) / (c.stats.size : ℚ) := by
  show (if ((c.cache.map (fun p => p.2.access_count)).sum = 0) then (0 : ℚ)
      else ((((c.cache.map (fun p => p.2.access_count)).sum : ℕ) : ℚ) /
        ((c.cache.length : ℕ) : ℚ))) =
    if c.cache.length = 0 then 0
    else ((((c.cache.map (fun p => p.2.access_count)).sum : ℕ) : ℚ) /
      ((c.cache.length : ℕ) : ℚ))
  by_cases h : (c.cache.map (fun p => p.2.access_count)).sum = 0
  · rw [if_pos h, h]
    by_cases hl : c.cache.length = 0
    · rw [if_pos hl]
    · rw [if_neg hl]
      simp
  · rw [if_neg h]
    have hl : ¬ c.cache.length = 0 := by
      intro h0
      rw [List.length_eq_zero] at h0
      rw [h0] at h
      simp at h
    rw [if_neg hl]

/-- C8: key derivation is stable under context reordering and query
normalization: permuting a duplicate-free context mapping, or replacing the
query by one equal after lowercasing and trimming, yields the same key. -/
theorem generateKey_stable {V : Type} (serV : V → String) (q q' : String)
    (ctx₁ ctx₂ : List (String × V)) (hperm : ctx₁.Perm ctx₂)
    (hnd : (ctx₁.map Prod.fst).Nodup)
    (hq : normalizeQuery q = normalizeQuery q') :
    generateKey serV q ctx₁ = generateKey serV q' ctx₂ := by
  unfold generateKey serCtx
  rw [sortByKey_eq_of_perm hperm hnd, hq]

theorem generateKey_stable_witness :
    ((([("b", "2"), ("a", "1")]) : List (String × String)).Perm [("a", "1"), ("b", "2")]) ∧
    (normalizeQuery "Foo " = normalizeQuery "foo") ∧
    (generateKey (fun v : String => v) "Foo " [("b", "2"), ("a", "1")] =
      generateKey (fun v : String => v) "foo" [("a", "1"), ("b", "2")]) :=
  ⟨List.Perm.swap ("a", "1") ("b", "2") [], by decide,
    generateKey_stable (fun v : String => v) "Foo " "foo" _ _
      (List.Perm.swap ("a", "1") ("b", "2") []) (by decide) (by decide)⟩

/-- C9: `cleanup_expired` is idempotent at a fixed time: immediately after
one sweep at time `now`, a second sweep at the same time removes nothing
and returns 0. -/
theorem cleanup_expired_idempotent {α : Type} (c : SimpleCache α) (now : ℤ) :
    ((((c.cleanup_expired now).2).cleanup_expired now).1 = 0) ∧
    ((((c.cleanup_expired now).2).cleanup_expired now).2 = (c.cleanup_expired now).2) := by
  have hnone : ∀ p ∈ ((c.cleanup_expired now).2).cache,
      ¬ (now - p.2.timestamp > ((c.cleanup_expired now).2).default_ttl) := by
    intro p hp hgt
    simp only [SimpleCache.cleanup_expired] at hp
    have hmem := mem_foldl_dictErase _ _ p hp
    exact hmem.2 (List.mem_map.mpr ⟨p,
      List.mem_filter.mpr ⟨hmem.1, by simpa using hgt⟩, rfl⟩)
  have hkey := cleanup_expired_of_no_expired ((c.cleanup_expired now).2) now hnone
  exact ⟨by rw [hkey], by rw [hkey]⟩

/-- C10: no non-emptiness precondition on the primary text: on a fresh
store, `set("", ctx, v)` followed by `get("", ctx)` within the TTL returns
`v`; and a whitespace-only primary normalizes to the empty string, so it
derives the same key as `""`. -/
theorem empty_query_roundtrip {α V : Type} (serV : V → String)
    (ctx : List (String × V)) (v : α) (ms : ℕ) (ttl t0 t1 : ℤ)
    (h : t1 - t0 ≤ ttl) :
    (((((SimpleCache.init α ms ttl).set serV t0 "" v ctx none).get serV t1 "" ctx).1 =
      some v)) ∧
    (generateKey serV "  " ctx = generateKey serV "" ctx) := by
  constructor
  · have hbranch : (if ([] : List (String × CacheEntry α)).length ≥ ms
        then evictLRU ([] : List (String × CacheEntry α)) else []) = [] := by
      split
      · rfl
      · rfl
    have hset : (((SimpleCache.init α ms ttl).set serV t0 "" v ctx none)).cache =
        dictInsert (generateKey serV "" ctx) ⟨v, t0, 0, some t0⟩ [] := by
      show dictInsert _ _ (if ([] : List (String × CacheEntry α)).length ≥ ms
          then evictLRU ([] : List (String × CacheEntry α)) else []) = _
      rw [hbranch]
    have httl : (((SimpleCache.init α ms ttl).set serV t0 "" v ctx none)).default_ttl =
        ttl := rfl
    simp only [SimpleCache.get, SimpleCache.getK, hset, dictGet_dictInsert_self, httl]
    rw [if_neg (not_lt.mpr h)]
  · have hnq : normalizeQuery "  " = normalizeQuery "" := by decide
    unfold generateKey
    rw [hnq]

theorem empty_query_roundtrip_witness :
    ((5 : ℤ) - 0 ≤ 10) ∧
    (((((SimpleCache.init ℕ 1000 10).set (fun v : String => v) 0 "" 7 [("s", "x")]
        none).get (fun v : String => v) 5 "" [("s", "x")]).1 = some 7)) :=
  ⟨by decide,
    (empty_query_roundtrip (fun v : String => v) [("s", "x")] 7 1000 10 0 5 (by decide)).1⟩
